import Mathlib

/-!
Shallow embedding of the band-disentanglement core of pybinding's `results.py`:
`Disentangle._calc_disentangle_matrix`, `Disentangle._linear_sum_approx`,
`Disentangle._linear_sum_scipy`, `Disentangle._apply_disentanglement` and
`Wavefunction._calc_overlap_matrix`, together with theorems settling the
specification claims about them.

Modelling conventions:
* numpy float arrays are embedded as total functions over `ℚ` indexed by `Nat`
  (a `(K-1, B, B)` tensor is a function plus the explicit sizes `nK`, `B`);
* the match threshold (a mutable attribute of `Disentangle`, set to `(2B)^(-1/4)`
  at construction and overwritten by callers, e.g. forced to `0` in the spec
  scenarios) is passed as an explicit `ℚ` parameter;
* `np.nan` fill values are embedded as `none : Option _`;
* the matching routine selected by the integer `routine` attribute is passed as
  an explicit function argument ranging over the two routines of the source.
-/

namespace Pybinding

/-- A band-by-band matrix slice (a numpy 2-D array), as a total function on indices. -/
abbrev Mat : Type := Nat → Nat → ℚ

/-- A 3-axis overlap tensor indexed by `(step, band, band)`, as a total function. -/
abbrev Tensor : Type := Nat → Nat → Nat → ℚ

/-- Index of the first maximum element of a list, mirroring `np.argmax` (ties break
towards the lowest index). -/
def argmaxIdx : List ℚ → Nat
  | [] => 0
  | x :: xs => if xs.all (fun y => decide (y ≤ x)) then 0 else argmaxIdx xs + 1

/-- The loop body of `Disentangle._linear_sum_approx`: iterate the row index `iB`
over the remaining loop count `fuel` (the python loop runs `for i_b in range(n_b)`),
each time choosing from the still-unassigned columns `idx` the one maximizing the
current row, removing it from the pool (`index_all.pop(i_max)`), and recording
whether the chosen value exceeds the threshold `t`. -/
def greedyGo (t : ℚ) (M : Mat) : Nat → Nat → List Nat → List (Nat × Bool)
  | 0, _, _ => []
  | _ + 1, _, [] => []
  | fuel + 1, iB, idx@(_ :: _) =>
    (idx.getD (argmaxIdx (idx.map (M iB))) 0,
      decide (M iB (idx.getD (argmaxIdx (idx.map (M iB))) 0) > t)) ::
      greedyGo t M fuel (iB + 1) (idx.eraseIdx (argmaxIdx (idx.map (M iB))))

/-- `Disentangle._linear_sum_approx`: greedy approximate maximum-weight assignment on
a `B × B` matrix, processing rows in ascending order; returns the chosen column for
each row together with the above-threshold flag. -/
def linear_sum_approx (t : ℚ) (M : Mat) (B : Nat) : List Nat × List Bool :=
  ((greedyGo t M B 0 (List.range B)).map Prod.fst, (greedyGo t M B 0 (List.range B)).map Prod.snd)

/-- Total matched weight of an assignment `p` on matrix `M`: the sum over rows `i`
of `M[i, p[i]]`. -/
def weight (M : Mat) (p : List Nat) : ℚ :=
  ((List.range p.length).map (fun i => M i (p.getD i 0))).sum

/-- Deterministic argmax-by-weight over a list of candidate assignments. -/
def chooseMax (M : Mat) (init : List Nat) (l : List (List Nat)) : List Nat :=
  l.foldl (fun best q => if weight M best < weight M q then q else best) init

/-- `Disentangle._linear_sum_scipy`. The external call
`scipy.optimize.linear_sum_assignment(-matrix)` is modelled by its documented
contract: it returns, with the rows in identity order (asserted by the source),
a column permutation of maximal total matched weight; tie-breaking among equal-weight
optima is fixed here by a deterministic scan, which no claim depends on.
The second component is `matrix[orig, perm] > threshold`. -/
def linear_sum_scipy (t : ℚ) (M : Mat) (B : Nat) : List Nat × List Bool :=
  (chooseMax M (List.range B) (List.range B).permutations',
    (List.range B).map (fun i =>
      decide (M i ((chooseMax M (List.range B) (List.range B).permutations').getD i 0) > t)))

/-- The type of a matching routine: threshold, matrix, size to `(ind, keep)`. -/
abbrev Matcher : Type := ℚ → Mat → Nat → List Nat × List Bool

/-- The two matching routines selectable through `Disentangle.routine`
(`0 → _linear_sum_approx`, `1 → _linear_sum_scipy`). -/
def isRoutine (f : Matcher) : Prop :=
  f = linear_sum_approx ∨ f = linear_sum_scipy

/-- Row `k` of the `(ind, keep)` pair built by the first loop of
`Disentangle._calc_disentangle_matrix`: row `0` is the identity with all-true keep;
row `k+1` applies the matching routine to the overlap slice `k` with its rows
reordered by the previously resolved row (`overlap_matrix[i_k - 1, ind[i_k - 1], :]`). -/
def disRow (f : Matcher) (t : ℚ) (ov : Tensor) (B : Nat) : Nat → List Nat × List Bool
  | 0 => (List.range B, List.replicate B true)
  | k + 1 => f t (fun a b => ov k (((disRow f t ov B k).1).getD a 0) b) B

/-- The `(K, B)` index map `ind` as a list of rows. -/
def indMap (f : Matcher) (t : ℚ) (ov : Tensor) (B K : Nat) : List (List Nat) :=
  (List.range K).map (fun k => (disRow f t ov B k).1)

/-- The `(K, B)` keep mask as a list of rows. -/
def keepMap (f : Matcher) (t : ℚ) (ov : Tensor) (B K : Nat) : List (List Bool) :=
  (List.range K).map (fun k => (disRow f t ov B k).2)

/-- Maximum of a list of naturals (`np.max` on a nonnegative integer array). -/
def maxL (l : List Nat) : Nat := l.foldr max 0

/-- One sweep of the inner loop building `working_indices`: for each band slot in
order, if the track is not kept and the threshold is nonzero, the slot is retired
and replaced by a brand-new index one past the current maximum of `tmp_w_i`. -/
def updTmp (t : ℚ) (keepRow : List Bool) (tmp : List Nat) : List Nat :=
  (List.range tmp.length).foldl
    (fun acc iB =>
      if keepRow.getD iB true = false ∧ t ≠ 0 then acc.set iB (maxL acc + 1) else acc)
    tmp

/-- Row `k` of `working_indices`: the running `tmp_w_i` (initially `0..B-1`) after
the sweeps for rows `0..k` of the keep mask. -/
def workRow (f : Matcher) (t : ℚ) (ov : Tensor) (B : Nat) : Nat → List Nat
  | 0 => updTmp t (disRow f t ov B 0).2 (List.range B)
  | k + 1 => updTmp t (disRow f t ov B (k + 1)).2 (workRow f t ov B k)

/-- The `(K, B)` working-index map as a list of rows. -/
def workingMap (f : Matcher) (t : ℚ) (ov : Tensor) (B K : Nat) : List (List Nat) :=
  (List.range K).map (fun k => workRow f t ov B k)

/-- `Disentangle._calc_disentangle_matrix` for an overlap tensor with `nK` steps
(`K = nK + 1` k-points) and `B` bands, dispatching on the `routine` integer
(any other value trips `assert False` in the source, embedded as `none`). -/
def calc_disentangle_matrix (routine : Nat) (t : ℚ) (ov : Tensor) (nK B : Nat) :
    Option (List (List Nat) × List (List Nat)) :=
  if routine = 0 then
    some (indMap linear_sum_approx t ov B (nK + 1), workingMap linear_sum_approx t ov B (nK + 1))
  else if routine = 1 then
    some (indMap linear_sum_scipy t ov B (nK + 1), workingMap linear_sum_scipy t ov B (nK + 1))
  else none

/-- The concrete `(2, 2, 2)` overlap tensor of the spec's first scenario:
`[[[0.9, 0.1], [0.1, 0.9]], [[0.05, 0.95], [0.95, 0.05]]]` (`B = 2`, `K = 3`). -/
def scenarioTensor : Tensor := fun i a b =>
  ((([[[mkRat 9 10, mkRat 1 10], [mkRat 1 10, mkRat 9 10]],
      [[mkRat 1 20, mkRat 19 20], [mkRat 19 20, mkRat 1 20]]] :
    List (List (List ℚ))).getD i []).getD a []).getD b 0

/-- Sequential scatter-write of position/value pairs into a list of optional cells,
the semantics of the numpy fancy-indexed assignment `out[i_k, positions] = values`
(later pairs overwrite earlier ones). -/
def writes {α : Type} (ps : List (Nat × α)) (init : List (Option α)) : List (Option α) :=
  ps.foldl (fun acc pv => acc.set pv.1 (some pv.2)) init

/-- `Disentangle._apply_disentanglement`: build a fresh output of band-axis size
`np.max(working_indices) + 1` filled with NaN (`none`), then for every k-row scatter
`out[i_k, working_indices[i_k]] = matrix[i_k, ind[i_k]]`. Trailing axes of the data
are absorbed into the entry type `α`. -/
def apply_disentanglement {α : Type} (indM wM : List (List Nat)) (data : Nat → Nat → α) :
    List (List (Option α)) :=
  (List.range wM.length).map (fun k =>
    writes ((wM.getD k []).zip ((indM.getD k []).map (data k)))
      (List.replicate (maxL (wM.map maxL) + 1) none))

/-- A complex number with rational components. -/
abbrev Cplx : Type := ℚ × ℚ

/-- Complex multiplication. -/
def cmul (x y : Cplx) : Cplx := (x.1 * y.1 - x.2 * y.2, x.1 * y.2 + x.2 * y.1)

/-- Complex conjugation. -/
def cconj (x : Cplx) : Cplx := (x.1, -x.2)

/-- The inner product `Σ_c u_c * conj(v_c)` of two component lists, as computed by
`wavefunction[i_k] @ wavefunction[i_k + 1].T.conj()`. -/
def dotc (u v : List Cplx) : Cplx :=
  ((u.zip v).map (fun p => cmul p.1 (cconj p.2))).foldr (fun x y => (x.1 + y.1, x.2 + y.2)) (0, 0)

/-- Magnitude of a complex number (`np.abs`). -/
noncomputable def cabs (z : Cplx) : ℝ := Real.sqrt ((z.1 : ℝ) ^ 2 + (z.2 : ℝ) ^ 2)

/-- A numpy complex array: a dynamic shape together with row-major flat data. -/
structure NDArrayC where
  shape : List Nat
  data : List Cplx

/-- Entry `w[i, a, c]` of a rank-3 complex array with axis sizes `(·, B, C)`. -/
def wfEntry (w : NDArrayC) (B C i a c : Nat) : Cplx :=
  w.data.getD ((i * B + a) * C + c) (0, 0)

/-- The component row `w[i, a, :]` of a rank-3 complex array. -/
def wfRow (w : NDArrayC) (B C i a : Nat) : List Cplx :=
  (List.range C).map (fun c => wfEntry w B C i a c)

/-- `Wavefunction._calc_overlap_matrix`: asserts the wavefunction array is rank 3
with more than one k-point, then returns the `(K-1, B, B)` tensor of magnitudes of
inner products between consecutive k-points. -/
noncomputable def calc_overlap_matrix (w : NDArrayC) : Option (List (List (List ℝ))) :=
  match w.shape with
  | [K, B, C] =>
    if 2 ≤ K then
      some ((List.range (K - 1)).map (fun i =>
        (List.range B).map (fun a =>
          (List.range B).map (fun b =>
            cabs (dotc (wfRow w B C i a) (wfRow w B C (i + 1) b))))))
    else none
  | _ => none

/-! ### Helper lemmas -/

lemma getD_range_map {α : Type} (g : Nat → α) (d : α) {k K : Nat} (h : k < K) :
    ((List.range K).map g).getD k d = g k := by
  rw [List.getD_eq_getElem _ d (by simpa using h)]
  simp

lemma argmaxIdx_lt_length {l : List ℚ} (h : l ≠ []) : argmaxIdx l < l.length := by
  induction l with
  | nil => exact absurd rfl h
  | cons x xs ih =>
    by_cases hall : xs.all (fun y => decide (y ≤ x)) = true
    · simp [argmaxIdx, hall]
    · rcases List.eq_nil_or_concat xs with h0 | ⟨l2, a, rfl⟩
      · subst h0; simp at hall
      · simp only [argmaxIdx, hall, if_false, List.length_cons]
        exact Nat.succ_lt_succ (ih (by simp))

lemma le_getD_argmaxIdx (l : List ℚ) : ∀ y ∈ l, y ≤ l.getD (argmaxIdx l) 0 := by
  induction l with
  | nil => intro y hy; simp at hy
  | cons x xs ih =>
    intro y hy
    by_cases hall : xs.all (fun y => decide (y ≤ x)) = true
    · simp only [argmaxIdx, hall, if_true, List.getD_cons_zero]
      rcases List.mem_cons.1 hy with rfl | hy2
      · exact le_refl y
      · exact of_decide_eq_true (List.all_eq_true.1 hall _ hy2)
    · simp only [argmaxIdx, hall, if_false, List.getD_cons_succ]
      rcases List.mem_cons.1 hy with rfl | hy2
      · have hex : ∃ z ∈ xs, y < z := by
          simp only [List.all_eq_true, decide_eq_true_eq] at hall
          push_neg at hall
          exact hall
        obtain ⟨z, hz, hyz⟩ := hex
        exact le_trans (le_of_lt hyz) (ih z hz)
      · exact ih y hy2

lemma perm_getD_cons_eraseIdx {α : Type} (d : α) :
    ∀ (l : List α) (i : Nat), i < l.length → List.Perm (l.getD i d :: l.eraseIdx i) l
  | [], i, h => by simp at h
  | x :: xs, 0, _ => by simp
  | x :: xs, i + 1, h => by
    simp only [List.getD_cons_succ, List.eraseIdx_cons_succ]
    have hi : i < xs.length := Nat.lt_of_succ_lt_succ h
    exact List.Perm.trans (List.Perm.swap x (xs.getD i d) (xs.eraseIdx i))
      (List.Perm.cons x (perm_getD_cons_eraseIdx d xs i hi))

lemma argmaxIdx_map_lt (M : Mat) (iB : Nat) {x : Nat} {xs : List Nat} :
    argmaxIdx (M iB x :: xs.map (M iB)) < xs.length + 1 := by
  have h := argmaxIdx_lt_length (l := (x :: xs).map (M iB)) (by simp)
  simpa using h

lemma eraseIdx_argmax_length {M : Mat} {iB x fuel : Nat} {xs : List Nat}
    (h : xs.length = fuel) :
    ((x :: xs).eraseIdx (argmaxIdx (M iB x :: xs.map (M iB)))).length = fuel := by
  rw [List.length_eraseIdx_of_lt (by simpa using argmaxIdx_map_lt M iB)]
  simp [h]

lemma greedyGo_length (t : ℚ) (M : Mat) :
    ∀ (fuel iB : Nat) (idx : List Nat), idx.length = fuel →
      (greedyGo t M fuel iB idx).length = fuel
  | 0, _, _, _ => by simp [greedyGo]
  | _ + 1, _, [], h => by simp at h
  | fuel + 1, iB, x :: xs, h => by
    have hx : xs.length = fuel := by simpa using h
    simp only [greedyGo, List.map_cons, List.length_cons]
    have hrec := greedyGo_length t M fuel (iB + 1)
      ((x :: xs).eraseIdx (argmaxIdx (M iB x :: xs.map (M iB)))) (eraseIdx_argmax_length hx)
    omega

lemma greedyGo_fst_perm (t : ℚ) (M : Mat) :
    ∀ (fuel iB : Nat) (idx : List Nat), idx.length = fuel →
      List.Perm ((greedyGo t M fuel iB idx).map Prod.fst) idx
  | 0, _, idx, h => by
    have hnil : idx = [] := List.eq_nil_of_length_eq_zero h
    subst hnil
    simp [greedyGo]
  | _ + 1, _, [], h => by simp at h
  | fuel + 1, iB, x :: xs, h => by
    have hx : xs.length = fuel := by simpa using h
    simp only [greedyGo, List.map_cons]
    refine List.Perm.trans
      (List.Perm.cons _ (greedyGo_fst_perm t M fuel (iB + 1) _ (eraseIdx_argmax_length hx))) ?_
    have hp := perm_getD_cons_eraseIdx 0 (x :: xs) (argmaxIdx (M iB x :: xs.map (M iB)))
      (by simpa using argmaxIdx_map_lt M iB)
    exact hp

lemma greedyGo_fst_t_irrel (t1 t2 : ℚ) (M : Mat) :
    ∀ (fuel iB : Nat) (idx : List Nat),
      (greedyGo t1 M fuel iB idx).map Prod.fst = (greedyGo t2 M fuel iB idx).map Prod.fst
  | 0, _, _ => by simp [greedyGo]
  | _ + 1, _, [] => by simp [greedyGo]
  | fuel + 1, iB, x :: xs => by
    simp only [greedyGo, List.map_cons]
    congr 1
    exact greedyGo_fst_t_irrel t1 t2 M fuel (iB + 1) _

lemma greedyGo_snd_getD (t : ℚ) (M : Mat) :
    ∀ (fuel iB : Nat) (idx : List Nat), ∀ j < fuel, idx.length = fuel →
      ((greedyGo t M fuel iB idx).map Prod.snd).getD j false =
        decide (M (iB + j) (((greedyGo t M fuel iB idx).map Prod.fst).getD j 0) > t)
  | 0, _, _, j, hj, _ => by omega
  | _ + 1, _, [], _, _, h => by simp at h
  | fuel + 1, iB, x :: xs, 0, _, h => by
    simp [greedyGo]
  | fuel + 1, iB, x :: xs, j + 1, hj, h => by
    have hx : xs.length = fuel := by simpa using h
    simp only [greedyGo, List.map_cons, List.getD_cons_succ]
    rw [greedyGo_snd_getD t M fuel (iB + 1) _ j (Nat.lt_of_succ_lt_succ hj)
      (eraseIdx_argmax_length hx)]
    have harith : iB + 1 + j = iB + (j + 1) := by omega
    rw [harith]

lemma approx_fst_perm (t : ℚ) (M : Mat) (B : Nat) :
    List.Perm (linear_sum_approx t M B).1 (List.range B) :=
  greedyGo_fst_perm t M B 0 (List.range B) (List.length_range B)

lemma approx_fst_length (t : ℚ) (M : Mat) (B : Nat) :
    (linear_sum_approx t M B).1.length = B := by
  simpa using (approx_fst_perm t M B).length_eq

lemma approx_snd_length (t : ℚ) (M : Mat) (B : Nat) :
    (linear_sum_approx t M B).2.length = B := by
  simpa [linear_sum_approx] using greedyGo_length t M B 0 (List.range B) (List.length_range B)

lemma approx_snd_getD (t : ℚ) (M : Mat) {B j : Nat} (hj : j < B) :
    (linear_sum_approx t M B).2.getD j false =
      decide (M j ((linear_sum_approx t M B).1.getD j 0) > t) := by
  have h := greedyGo_snd_getD t M B 0 (List.range B) j hj (List.length_range B)
  simpa [linear_sum_approx] using h

lemma approx_fst_t_irrel (t1 t2 : ℚ) (M : Mat) (B : Nat) :
    (linear_sum_approx t1 M B).1 = (linear_sum_approx t2 M B).1 :=
  greedyGo_fst_t_irrel t1 t2 M B 0 (List.range B)

lemma chooseMax_eq_or_mem (M : Mat) :
    ∀ (l : List (List Nat)) (init : List Nat), chooseMax M init l = init ∨ chooseMax M init l ∈ l
  | [], _ => Or.inl rfl
  | q :: l, init => by
    simp only [chooseMax, List.foldl_cons]
    have h := chooseMax_eq_or_mem M l (if weight M init < weight M q then q else init)
    simp only [chooseMax] at h
    rcases h with h | h
    · rw [h]
      by_cases hc : weight M init < weight M q
      · rw [if_pos hc]; exact Or.inr (List.mem_cons_self q l)
      · rw [if_neg hc]; exact Or.inl rfl
    · exact Or.inr (List.mem_cons_of_mem _ h)

lemma weight_le_chooseMax (M : Mat) :
    ∀ (l : List (List Nat)) (init : List Nat), weight M init ≤ weight M (chooseMax M init l)
  | [], _ => le_refl _
  | q :: l, init => by
    simp only [chooseMax, List.foldl_cons]
    have hrec := weight_le_chooseMax M l (if weight M init < weight M q then q else init)
    simp only [chooseMax] at hrec
    by_cases hc : weight M init < weight M q
    · rw [if_pos hc] at hrec ⊢
      exact le_trans (le_of_lt hc) hrec
    · rw [if_neg hc] at hrec ⊢
      exact hrec

lemma mem_weight_le_chooseMax (M : Mat) :
    ∀ (l : List (List Nat)) (init : List Nat), ∀ q ∈ l,
      weight M q ≤ weight M (chooseMax M init l)
  | [], _, q, hq => by simp at hq
  | p :: l, init, q, hq => by
    simp only [chooseMax, List.foldl_cons]
    rcases List.mem_cons.1 hq with rfl | hmem
    · have h1 : weight M q ≤ weight M (if weight M init < weight M q then q else init) := by
        by_cases hc : weight M init < weight M q
        · rw [if_pos hc]
        · rw [if_neg hc]; exact le_of_not_lt hc
      have h2 := weight_le_chooseMax M l (if weight M init < weight M q then q else init)
      simp only [chooseMax] at h2
      exact le_trans h1 h2
    · have h := mem_weight_le_chooseMax M l (if weight M init < weight M p then p else init) q hmem
      simp only [chooseMax] at h
      exact h

lemma scipy_fst_perm (t : ℚ) (M : Mat) (B : Nat) :
    List.Perm (linear_sum_scipy t M B).1 (List.range B) := by
  simp only [linear_sum_scipy]
  rcases chooseMax_eq_or_mem M (List.range B).permutations' (List.range B) with h | h
  · rw [h]
  · exact List.mem_permutations'.1 h

lemma scipy_fst_length (t : ℚ) (M : Mat) (B : Nat) :
    (linear_sum_scipy t M B).1.length = B := by
  simpa using (scipy_fst_perm t M B).length_eq

lemma scipy_snd_length (t : ℚ) (M : Mat) (B : Nat) :
    (linear_sum_scipy t M B).2.length = B := by
  simp [linear_sum_scipy]

lemma scipy_snd_getD (t : ℚ) (M : Mat) {B j : Nat} (hj : j < B) :
    (linear_sum_scipy t M B).2.getD j false =
      decide (M j ((linear_sum_scipy t M B).1.getD j 0) > t) := by
  simp only [linear_sum_scipy]
  exact getD_range_map _ _ hj

lemma scipy_fst_t_irrel (t1 t2 : ℚ) (M : Mat) (B : Nat) :
    (linear_sum_scipy t1 M B).1 = (linear_sum_scipy t2 M B).1 := rfl

lemma matcher_fst_perm {f : Matcher} (hf : isRoutine f) (t : ℚ) (M : Mat) (B : Nat) :
    List.Perm (f t M B).1 (List.range B) := by
  rcases hf with rfl | rfl
  · exact approx_fst_perm t M B
  · exact scipy_fst_perm t M B

lemma matcher_fst_length {f : Matcher} (hf : isRoutine f) (t : ℚ) (M : Mat) (B : Nat) :
    (f t M B).1.length = B := by
  rcases hf with rfl | rfl
  · exact approx_fst_length t M B
  · exact scipy_fst_length t M B

lemma matcher_snd_length {f : Matcher} (hf : isRoutine f) (t : ℚ) (M : Mat) (B : Nat) :
    (f t M B).2.length = B := by
  rcases hf with rfl | rfl
  · exact approx_snd_length t M B
  · exact scipy_snd_length t M B

lemma matcher_snd_getD {f : Matcher} (hf : isRoutine f) (t : ℚ) (M : Mat) {B j : Nat}
    (hj : j < B) :
    (f t M B).2.getD j false = decide (M j ((f t M B).1.getD j 0) > t) := by
  rcases hf with rfl | rfl
  · exact approx_snd_getD t M hj
  · exact scipy_snd_getD t M hj

lemma matcher_fst_t_irrel {f : Matcher} (hf : isRoutine f) (t1 t2 : ℚ) (M : Mat) (B : Nat) :
    (f t1 M B).1 = (f t2 M B).1 := by
  rcases hf with rfl | rfl
  · exact approx_fst_t_irrel t1 t2 M B
  · exact scipy_fst_t_irrel t1 t2 M B

lemma getD_mem {α : Type} {l : List α} {j : Nat} (d : α) (h : j < l.length) :
    l.getD j d ∈ l := by
  rw [List.getD_eq_getElem _ _ h]
  exact List.getElem_mem h

lemma disRow_fst_perm {f : Matcher} (hf : isRoutine f) (t : ℚ) (ov : Tensor) (B : Nat) :
    ∀ k : Nat, List.Perm (disRow f t ov B k).1 (List.range B)
  | 0 => by simp [disRow]
  | k + 1 => by
    simp only [disRow]
    exact matcher_fst_perm hf t _ B

lemma disRow_fst_length {f : Matcher} (hf : isRoutine f) (t : ℚ) (ov : Tensor) (B k : Nat) :
    (disRow f t ov B k).1.length = B := by
  simpa using (disRow_fst_perm hf t ov B k).length_eq

lemma disRow_snd_length {f : Matcher} (hf : isRoutine f) (t : ℚ) (ov : Tensor) (B : Nat) :
    ∀ k : Nat, (disRow f t ov B k).2.length = B
  | 0 => by simp [disRow]
  | k + 1 => by
    simp only [disRow]
    exact matcher_snd_length hf t _ B

lemma disRow_fst_getD_lt {f : Matcher} (hf : isRoutine f) (t : ℚ) (ov : Tensor) {B : Nat}
    (k : Nat) {j : Nat} (hj : j < B) : (disRow f t ov B k).1.getD j 0 < B := by
  have hmem : (disRow f t ov B k).1.getD j 0 ∈ (disRow f t ov B k).1 :=
    getD_mem 0 (by rw [disRow_fst_length hf]; exact hj)
  have := (disRow_fst_perm hf t ov B k).mem_iff.1 hmem
  simpa using this

lemma disRow_fst_t_irrel {f : Matcher} (hf : isRoutine f) (t1 t2 : ℚ) (ov : Tensor) (B : Nat) :
    ∀ k : Nat, (disRow f t1 ov B k).1 = (disRow f t2 ov B k).1
  | 0 => rfl
  | k + 1 => by
    simp only [disRow, disRow_fst_t_irrel hf t1 t2 ov B k]
    exact matcher_fst_t_irrel hf t1 t2 _ B

lemma disRow_snd_getD {f : Matcher} (hf : isRoutine f) (t : ℚ) (ov : Tensor) {B : Nat}
    (k : Nat) {j : Nat} (hj : j < B) :
    (disRow f t ov B (k + 1)).2.getD j false =
      decide (ov k ((disRow f t ov B k).1.getD j 0) ((disRow f t ov B (k + 1)).1.getD j 0) > t) := by
  simp only [disRow]
  exact matcher_snd_getD hf t _ hj

lemma le_maxL {l : List Nat} : ∀ x ∈ l, x ≤ maxL l := by
  induction l with
  | nil => intro x hx; simp at hx
  | cons y ys ih =>
    intro x hx
    rcases List.mem_cons.1 hx with rfl | hx2
    · exact le_max_left _ _
    · exact le_trans (ih x hx2) (le_max_right _ _)

lemma maxL_le {l : List Nat} {m : Nat} (h : ∀ x ∈ l, x ≤ m) : maxL l ≤ m := by
  induction l with
  | nil => simp [maxL]
  | cons y ys ih =>
    simp only [maxL, List.foldr_cons]
    exact max_le (h y (List.mem_cons_self y ys)) (ih (fun x hx => h x (List.mem_cons_of_mem _ hx)))

lemma maxL_range (B : Nat) : maxL (List.range B) = B - 1 := by
  rcases Nat.eq_zero_or_pos B with rfl | hB
  · rfl
  · refine le_antisymm (maxL_le ?_) ?_
    · intro x hx
      have := List.mem_range.1 hx
      omega
    · exact le_maxL (B - 1) (List.mem_range.2 (by omega))

lemma updStep_length (t : ℚ) (keepRow : List Bool) :
    ∀ (is : List Nat) (acc : List Nat),
      (is.foldl (fun acc iB =>
        if keepRow.getD iB true = false ∧ t ≠ 0 then acc.set iB (maxL acc + 1) else acc)
        acc).length = acc.length
  | [], _ => rfl
  | i :: is, acc => by
    simp only [List.foldl_cons]
    rw [updStep_length t keepRow is _]
    by_cases hc : keepRow.getD i true = false ∧ t ≠ 0
    · rw [if_pos hc, List.length_set]
    · rw [if_neg hc]

lemma updStep_nodup (t : ℚ) (keepRow : List Bool) :
    ∀ (is : List Nat) (acc : List Nat), acc.Nodup →
      (is.foldl (fun acc iB =>
        if keepRow.getD iB true = false ∧ t ≠ 0 then acc.set iB (maxL acc + 1) else acc)
        acc).Nodup
  | [], _, h => h
  | i :: is, acc, h => by
    simp only [List.foldl_cons]
    apply updStep_nodup t keepRow is
    by_cases hc : keepRow.getD i true = false ∧ t ≠ 0
    · rw [if_pos hc]
      refine h.set ?_
      intro hmem
      exact absurd (le_maxL _ hmem) (by omega)
    · rw [if_neg hc]; exact h

lemma updTmp_length (t : ℚ) (keepRow : List Bool) (tmp : List Nat) :
    (updTmp t keepRow tmp).length = tmp.length :=
  updStep_length t keepRow (List.range tmp.length) tmp

lemma updTmp_nodup (t : ℚ) (keepRow : List Bool) {tmp : List Nat} (h : tmp.Nodup) :
    (updTmp t keepRow tmp).Nodup :=
  updStep_nodup t keepRow (List.range tmp.length) tmp h

lemma updStep_zero (keepRow : List Bool) :
    ∀ (is : List Nat) (acc : List Nat),
      (is.foldl (fun acc iB =>
        if keepRow.getD iB true = false ∧ (0 : ℚ) ≠ 0 then acc.set iB (maxL acc + 1) else acc)
        acc) = acc
  | [], _ => rfl
  | i :: is, acc => by
    simp only [List.foldl_cons, if_neg (by simp : ¬(keepRow.getD i true = false ∧ (0 : ℚ) ≠ 0))]
    exact updStep_zero keepRow is acc

lemma updTmp_zero (keepRow : List Bool) (tmp : List Nat) : updTmp 0 keepRow tmp = tmp :=
  updStep_zero keepRow (List.range tmp.length) tmp

lemma workRow_length (f : Matcher) (t : ℚ) (ov : Tensor) (B : Nat) :
    ∀ k : Nat, (workRow f t ov B k).length = B
  | 0 => by rw [workRow, updTmp_length, List.length_range]
  | k + 1 => by rw [workRow, updTmp_length, workRow_length f t ov B k]

lemma workRow_nodup (f : Matcher) (t : ℚ) (ov : Tensor) (B : Nat) :
    ∀ k : Nat, (workRow f t ov B k).Nodup
  | 0 => updTmp_nodup _ _ (List.nodup_range B)
  | k + 1 => updTmp_nodup _ _ (workRow_nodup f t ov B k)

lemma workRow_zero (f : Matcher) (ov : Tensor) (B : Nat) :
    ∀ k : Nat, workRow f 0 ov B k = List.range B
  | 0 => by rw [workRow, updTmp_zero]
  | k + 1 => by rw [workRow, updTmp_zero, workRow_zero f ov B k]

lemma writes_length {α : Type} :
    ∀ (ps : List (Nat × α)) (init : List (Option α)), (writes ps init).length = init.length
  | [], _ => rfl
  | p :: ps, init => by
    simp only [writes, List.foldl_cons]
    have h := writes_length ps (init.set p.1 (some p.2))
    simp only [writes] at h
    rw [h, List.length_set]

lemma writes_getElem?_not_mem {α : Type} :
    ∀ (ps : List (Nat × α)) (init : List (Option α)) (pos : Nat),
      pos ∉ ps.map Prod.fst → (writes ps init)[pos]? = init[pos]?
  | [], _, _, _ => rfl
  | p :: ps, init, pos, h => by
    simp only [List.map_cons, List.mem_cons] at h
    push_neg at h
    simp only [writes, List.foldl_cons]
    have hrec := writes_getElem?_not_mem ps (init.set p.1 (some p.2)) pos h.2
    simp only [writes] at hrec
    rw [hrec, List.getElem?_set_ne (Ne.symm h.1)]

lemma writes_getElem?_nodup {α : Type} :
    ∀ (ps : List (Nat × α)) (init : List (Option α)) (j : Nat) (hj : j < ps.length),
      (ps.map Prod.fst).Nodup → (ps[j]).1 < init.length →
      (writes ps init)[(ps[j]).1]? = some (some (ps[j]).2)
  | [], _, j, hj, _, _ => by simp at hj
  | p :: ps, init, 0, hj, hnd, hlt => by
    simp only [writes, List.foldl_cons, List.getElem_cons_zero] at hlt ⊢
    simp only [List.map_cons] at hnd
    have hnotin : p.1 ∉ ps.map Prod.fst := (List.nodup_cons.1 hnd).1
    have hrec := writes_getElem?_not_mem ps (init.set p.1 (some p.2)) p.1 hnotin
    simp only [writes] at hrec
    rw [hrec, List.getElem?_set_self hlt]
  | p :: ps, init, j + 1, hj, hnd, hlt => by
    simp only [writes, List.foldl_cons, List.getElem_cons_succ] at hlt ⊢
    simp only [List.map_cons] at hnd
    have hrec := writes_getElem?_nodup ps (init.set p.1 (some p.2)) j
      (Nat.lt_of_succ_lt_succ hj) (List.nodup_cons.1 hnd).2
      (by rw [List.length_set]; exact hlt)
    simp only [writes] at hrec
    exact hrec

/-! ### Claim theorems -/

/-- C1: for every 3-axis overlap tensor with square per-step slices and every `k` in
`1..K-1`, the disentangle computation sets `(IndexMap[k], KeepMask[k])` to the selected
matching routine applied to the overlap slice `overlap[k-1]` with its rows reordered by
the previous step's resolved index row `IndexMap[k-1]`, so band identity is tracked
transitively along the whole k-path. -/
theorem C1_transition_uses_accumulated_mapping {f : Matcher} (hf : isRoutine f) (t : ℚ)
    (ov : Tensor) (B K k : Nat) (hk1 : 1 ≤ k) (hkK : k < K) :
    ((indMap f t ov B K).getD k [], (keepMap f t ov B K).getD k []) =
      f t (fun a b => ov (k - 1) (((indMap f t ov B K).getD (k - 1) []).getD a 0) b) B := by
  obtain ⟨j, rfl⟩ : ∃ j, k = j + 1 := ⟨k - 1, by omega⟩
  rw [indMap, keepMap, getD_range_map _ _ hkK, getD_range_map _ _ hkK,
    getD_range_map _ _ (by omega : j + 1 - 1 < K)]
  simp only [Nat.add_sub_cancel, disRow]

theorem C1_transition_uses_accumulated_mapping_witness :
    (isRoutine linear_sum_approx ∧ 1 ≤ 1 ∧ 1 < 2) ∧
    ((indMap linear_sum_approx 0 (fun _ _ _ => 0) 1 2).getD 1 [],
      (keepMap linear_sum_approx 0 (fun _ _ _ => 0) 1 2).getD 1 []) =
      linear_sum_approx 0
        (fun a b => (fun _ _ _ => (0 : ℚ)) (1 - 1)
          (((indMap linear_sum_approx 0 (fun _ _ _ => 0) 1 2).getD (1 - 1) []).getD a 0) b) 1 :=
  ⟨⟨Or.inl rfl, le_refl 1, by decide⟩,
    C1_transition_uses_accumulated_mapping (Or.inl rfl) 0 (fun _ _ _ => 0) 1 2 1
      (le_refl 1) (by decide)⟩

/-- C3: for every overlap tensor and both matching routines, every row `IndexMap[k]`,
`0 ≤ k ≤ K-1`, is a permutation of `{0, ..., B-1}`: no repeats and full coverage. -/
theorem C3_index_rows_are_permutations {f : Matcher} (hf : isRoutine f) (t : ℚ)
    (ov : Tensor) (B K k : Nat) (hk : k < K) :
    List.Perm ((indMap f t ov B K).getD k []) (List.range B) := by
  rw [indMap, getD_range_map _ _ hk]
  exact disRow_fst_perm hf t ov B k

theorem C3_index_rows_are_permutations_witness :
    (isRoutine linear_sum_scipy ∧ 1 < 3) ∧
    List.Perm ((indMap linear_sum_scipy 0 (fun _ _ _ => 0) 2 3).getD 1 []) (List.range 2) :=
  ⟨⟨Or.inr rfl, by decide⟩,
    C3_index_rows_are_permutations (Or.inr rfl) 0 (fun _ _ _ => 0) 2 3 1 (by decide)⟩

/-- C4 counterexample: the claim says that with threshold exactly `0` every `KeepMask`
entry is `True` for every overlap tensor; but for the all-zero `(1, 1, 1)` overlap tensor
the matched value is `0`, the strict comparison `0 > 0` fails, and the keep entry at
k-point `1`, band `0` is `False` (shown here for the greedy routine; the scipy routine
computes the same comparison). -/
theorem C4_counterexample :
    ((keepMap linear_sum_approx 0 (fun _ _ _ => 0) 1 2).getD 1 []).getD 0 false = false := by
  decide

/-- C4 (amended): with threshold exactly `0`, every entry of the computed `KeepMask` is
`True` provided every entry of the overlap tensor is strictly positive (the keep flag is
the strict comparison `matched overlap > 0`, so a matched overlap of exactly `0` is not
kept even at zero threshold). -/
theorem C4_keep_all_true_when_overlaps_positive {f : Matcher} (hf : isRoutine f)
    (ov : Tensor) (nK B : Nat)
    (hpos : ∀ i a b, i < nK → a < B → b < B → 0 < ov i a b)
    (k b : Nat) (hk : k < nK + 1) (hb : b < B) :
    ((keepMap f 0 ov B (nK + 1)).getD k []).getD b false = true := by
  rw [keepMap, getD_range_map _ _ hk]
  cases k with
  | zero =>
    simp only [disRow]
    rw [List.getD_eq_getElem _ _ (by simpa using hb)]
    simp
  | succ j =>
    rw [disRow_snd_getD hf 0 ov j hb]
    simp only [decide_eq_true_eq]
    exact hpos j _ _ (by omega) (disRow_fst_getD_lt hf 0 ov j hb)
      (disRow_fst_getD_lt hf 0 ov (j + 1) hb)

theorem C4_keep_all_true_when_overlaps_positive_witness :
    (isRoutine linear_sum_approx ∧ (∀ i a b, i < 1 → a < 1 → b < 1 →
        (0 : ℚ) < (fun _ _ _ => (1 : ℚ)) i a b) ∧ 1 < 1 + 1 ∧ 0 < 1) ∧
    ((keepMap linear_sum_approx 0 (fun _ _ _ => 1) 1 (1 + 1)).getD 1 []).getD 0 false = true :=
  ⟨⟨Or.inl rfl, fun _ _ _ _ _ _ => by simp, by decide, by decide⟩,
    C4_keep_all_true_when_overlaps_positive (Or.inl rfl) (fun _ _ _ => 1) 1 1
      (fun _ _ _ _ _ _ => by simp) 1 0 (by decide) (by decide)⟩

/-- C5: when the threshold is exactly `0`, the update condition
`not keep and not threshold == 0` is always false, so every row of the computed
`WorkingIndexMap` stays the identity `0..B-1`, no new working slots are ever allocated,
and `max(WorkingIndexMap) + 1 = B`: the assertion guarding the zero-threshold invariant
in `_calc_disentangle_matrix` never fails. -/
theorem C5_zero_threshold_working_identity {f : Matcher} (hf : isRoutine f) (ov : Tensor)
    (nK B : Nat) (hB : 0 < B) :
    (∀ k < nK + 1, (workingMap f 0 ov B (nK + 1)).getD k [] = List.range B) ∧
    maxL ((workingMap f 0 ov B (nK + 1)).map maxL) + 1 = B := by
  constructor
  · intro k hk
    rw [workingMap, getD_range_map _ _ hk]
    exact workRow_zero f ov B k
  · have h1 : (workingMap f 0 ov B (nK + 1)).map maxL =
        (List.range (nK + 1)).map (fun _ => B - 1) := by
      rw [workingMap, List.map_map]
      refine List.map_congr_left ?_
      intro k _
      simp only [Function.comp_apply, workRow_zero f ov B k, maxL_range]
    have h3 : maxL ((List.range (nK + 1)).map (fun _ => B - 1)) = B - 1 := by
      refine le_antisymm (maxL_le ?_) (le_maxL _ ?_)
      · intro x hx
        rcases List.mem_map.1 hx with ⟨_, _, rfl⟩
        exact le_refl _
      · exact List.mem_map.2 ⟨0, List.mem_range.2 (by omega), rfl⟩
    rw [h1, h3]
    omega

theorem C5_zero_threshold_working_identity_witness :
    (isRoutine linear_sum_approx ∧ 0 < 2) ∧
    ((∀ k < 1 + 1, (workingMap linear_sum_approx 0 (fun _ _ _ => 0) 2 (1 + 1)).getD k [] =
        List.range 2) ∧
      maxL ((workingMap linear_sum_approx 0 (fun _ _ _ => 0) 2 (1 + 1)).map maxL) + 1 = 2) :=
  ⟨⟨Or.inl rfl, by decide⟩,
    C5_zero_threshold_working_identity (Or.inl rfl) (fun _ _ _ => 0) 1 2 (by decide)⟩

/-- C6: for a fixed overlap tensor and a fixed matching routine, the keep mask is
antitone in the threshold: if `t1 ≤ t2`, every `(k, band)` entry that is `False` under
`t1` is also `False` under `t2` (the index rows do not depend on the threshold, and the
keep flag is the strict comparison of a threshold-independent matched value). -/
theorem C6_keep_antitone_in_threshold {f : Matcher} (hf : isRoutine f) (t1 t2 : ℚ)
    (h12 : t1 ≤ t2) (ov : Tensor) (B K k b : Nat) (hk : k < K) (hb : b < B)
    (hfalse : ((keepMap f t1 ov B K).getD k []).getD b false = false) :
    ((keepMap f t2 ov B K).getD k []).getD b false = false := by
  rw [keepMap, getD_range_map _ _ hk] at hfalse ⊢
  cases k with
  | zero =>
    exfalso
    simp only [disRow] at hfalse
    rw [List.getD_eq_getElem _ _ (by simpa using hb)] at hfalse
    simp at hfalse
  | succ j =>
    rw [disRow_snd_getD hf t1 ov j hb] at hfalse
    rw [disRow_snd_getD hf t2 ov j hb, disRow_fst_t_irrel hf t2 t1 ov B j,
      disRow_fst_t_irrel hf t2 t1 ov B (j + 1)]
    simp only [decide_eq_false_iff_not] at hfalse ⊢
    intro hgt
    exact hfalse (lt_of_le_of_lt h12 hgt)

theorem C6_keep_antitone_in_threshold_witness :
    (isRoutine linear_sum_approx ∧ (0 : ℚ) ≤ 1 ∧ 1 < 2 ∧ 0 < 1 ∧
      ((keepMap linear_sum_approx 0 (fun _ _ _ => 0) 1 2).getD 1 []).getD 0 false = false) ∧
    ((keepMap linear_sum_approx 1 (fun _ _ _ => 0) 1 2).getD 1 []).getD 0 false = false :=
  ⟨⟨Or.inl rfl, by decide, by decide, by decide, by decide⟩,
    C6_keep_antitone_in_threshold (Or.inl rfl) 0 1 (by decide) (fun _ _ _ => 0) 1 2 1 0
      (by decide) (by decide) (by decide)⟩

/-- C7: for every nonnegative square matrix, the total matched weight
`Σ_i M[i, perm[i]]` of the optimal-assignment routine is at least that of the greedy
approximate routine (the greedy assignment is one of the permutations over which the
optimal routine maximizes). -/
theorem C7_optimal_weight_ge_greedy (t : ℚ) (M : Mat) (B : Nat)
    (hpos : ∀ i j, i < B → j < B → 0 ≤ M i j) :
    weight M (linear_sum_approx t M B).1 ≤ weight M (linear_sum_scipy t M B).1 := by
  have hmem : (linear_sum_approx t M B).1 ∈ (List.range B).permutations' :=
    List.mem_permutations'.2 (approx_fst_perm t M B)
  exact mem_weight_le_chooseMax M (List.range B).permutations' (List.range B) _ hmem

theorem C7_optimal_weight_ge_greedy_witness :
    (∀ i j, i < 1 → j < 1 → (0 : ℚ) ≤ (fun _ _ => (1 : ℚ)) i j) ∧
    weight (fun _ _ => 1) (linear_sum_approx 0 (fun _ _ => 1) 1).1 ≤
      weight (fun _ _ => 1) (linear_sum_scipy 0 (fun _ _ => 1) 1).1 :=
  ⟨fun _ _ _ _ => by simp,
    C7_optimal_weight_ge_greedy 0 (fun _ _ => 1) 1 (fun _ _ _ _ => by simp)⟩

/-- C10: for every overlap tensor, either routine and every threshold, each row of the
computed working-index map has pairwise distinct entries (a retired track is always given
a brand-new slot strictly greater than every slot in use), so the scatter-write in the
apply operation never writes the same output slot twice within one k-row. -/
theorem C10_working_rows_have_distinct_entries {f : Matcher} (hf : isRoutine f) (t : ℚ)
    (ov : Tensor) (B K k : Nat) (hk : k < K) :
    ((workingMap f t ov B K).getD k []).Nodup := by
  rw [workingMap, getD_range_map _ _ hk]
  exact workRow_nodup f t ov B k

theorem C10_working_rows_have_distinct_entries_witness :
    (isRoutine linear_sum_approx ∧ 1 < 2) ∧
    ((workingMap linear_sum_approx 1 (fun _ _ _ => 0) 2 2).getD 1 []).Nodup :=
  ⟨⟨Or.inl rfl, by decide⟩,
    C10_working_rows_have_distinct_entries (Or.inl rfl) 1 (fun _ _ _ => 0) 2 2 1 (by decide)⟩

lemma apply_length {α : Type} (indM wM : List (List Nat)) (data : Nat → Nat → α) :
    (apply_disentanglement indM wM data).length = wM.length := by
  simp [apply_disentanglement]

lemma apply_row {α : Type} (indM wM : List (List Nat)) (data : Nat → Nat → α) {k : Nat}
    (hk : k < wM.length) :
    (apply_disentanglement indM wM data).getD k [] =
      writes ((wM.getD k []).zip ((indM.getD k []).map (data k)))
        (List.replicate (maxL (wM.map maxL) + 1) none) := by
  rw [apply_disentanglement]
  exact getD_range_map _ _ hk

lemma workingMap_length (f : Matcher) (t : ℚ) (ov : Tensor) (B K : Nat) :
    (workingMap f t ov B K).length = K := by
  simp [workingMap]

lemma workingMap_getD (f : Matcher) (t : ℚ) (ov : Tensor) (B : Nat) {K k : Nat} (hk : k < K) :
    (workingMap f t ov B K).getD k [] = workRow f t ov B k := by
  rw [workingMap]
  exact getD_range_map _ _ hk

lemma indMap_getD (f : Matcher) (t : ℚ) (ov : Tensor) (B : Nat) {K k : Nat} (hk : k < K) :
    (indMap f t ov B K).getD k [] = (disRow f t ov B k).1 := by
  rw [indMap]
  exact getD_range_map _ _ hk

lemma workRow_getD_le_globalMax (f : Matcher) (t : ℚ) (ov : Tensor) (B : Nat) {K k b : Nat}
    (hk : k < K) (hb : b < B) :
    (workRow f t ov B k).getD b 0 ≤ maxL ((workingMap f t ov B K).map maxL) := by
  have hmem : (workRow f t ov B k).getD b 0 ∈ workRow f t ov B k :=
    getD_mem 0 (by rw [workRow_length]; exact hb)
  refine le_trans (le_maxL _ hmem) (le_maxL _ ?_)
  refine List.mem_map.2 ⟨workRow f t ov B k, ?_, rfl⟩
  rw [workingMap]
  exact List.mem_map.2 ⟨k, List.mem_range.2 hk, rfl⟩

/-- C2: applying the engine to any data array with leading axes `(K, B)` builds a fresh
output whose band axis has size `max(WorkingIndexMap) + 1`, with
`out[k, working[k, b], ...] = data[k, ind[k, b], ...]` for every `(k, b)`, every other
slot left as NaN (`none`); in particular every position where `KeepMask` is true reads
back the tracked original value and is not NaN. -/
theorem C2_apply_scatter_and_nan_fill {α : Type} {f : Matcher} (hf : isRoutine f) (t : ℚ)
    (ov : Tensor) (nK B : Nat) (hB : 0 < B) (data : Nat → Nat → α)
    (indM wM : List (List Nat)) (out : List (List (Option α))) (S : Nat)
    (hI : indM = indMap f t ov B (nK + 1)) (hW : wM = workingMap f t ov B (nK + 1))
    (hout : out = apply_disentanglement indM wM data)
    (hS : S = maxL (wM.map maxL) + 1) :
    out.length = nK + 1 ∧
    (∀ k < nK + 1, (out.getD k []).length = S) ∧
    (∀ k < nK + 1, ∀ b < B,
      (out.getD k []).getD ((wM.getD k []).getD b 0) none =
        some (data k ((indM.getD k []).getD b 0))) ∧
    (∀ k < nK + 1, ∀ j, j ∉ wM.getD k [] → (out.getD k []).getD j none = none) ∧
    (∀ k < nK + 1, ∀ b < B,
      ((keepMap f t ov B (nK + 1)).getD k []).getD b false = true →
        (out.getD k []).getD ((wM.getD k []).getD b 0) none ≠ none) := by
  subst hI hW hout hS
  set K := nK + 1 with hK
  have hwlen : (workingMap f t ov B K).length = K := workingMap_length f t ov B K
  have hrowlen : ∀ k, (workRow f t ov B k).length = B := workRow_length f t ov B
  have hindlen : ∀ k, (disRow f t ov B k).1.length = B := fun k => disRow_fst_length hf t ov B k
  have hmain : ∀ k < K, ∀ b < B,
      ((apply_disentanglement (indMap f t ov B K) (workingMap f t ov B K) data).getD k []).getD
          (((workingMap f t ov B K).getD k []).getD b 0) none =
        some (data k (((indMap f t ov B K).getD k []).getD b 0)) := by
    intro k hk b hb
    rw [apply_row _ _ _ (by rw [hwlen]; exact hk), workingMap_getD f t ov B hk,
      indMap_getD f t ov B hk]
    have hblt : b < ((workRow f t ov B k).zip (((disRow f t ov B k).1).map (data k))).length := by
      rw [List.length_zip, hrowlen, List.length_map, hindlen]
      simpa using hb
    have hbw : b < (workRow f t ov B k).length := by rw [hrowlen]; exact hb
    have hbi : b < ((disRow f t ov B k).1).length := by rw [hindlen]; exact hb
    have hfst : (((workRow f t ov B k).zip (((disRow f t ov B k).1).map (data k)))[b]).1 =
        (workRow f t ov B k).getD b 0 := by
      rw [List.getElem_zip, List.getD_eq_getElem _ _ hbw]
    have hsnd : (((workRow f t ov B k).zip (((disRow f t ov B k).1).map (data k)))[b]).2 =
        data k (((disRow f t ov B k).1).getD b 0) := by
      rw [List.getElem_zip]
      simp only [List.getElem_map]
      rw [List.getD_eq_getElem _ _ hbi]
    have hnd : ((((workRow f t ov B k).zip (((disRow f t ov B k).1).map (data k)))).map
        Prod.fst).Nodup := by
      rw [List.map_fst_zip _ _ (by rw [hrowlen, List.length_map, hindlen])]
      exact workRow_nodup f t ov B k
    have hlt : (((workRow f t ov B k).zip (((disRow f t ov B k).1).map (data k)))[b]).1 <
        (List.replicate (maxL ((workingMap f t ov B K).map maxL) + 1)
          (none : Option α)).length := by
      rw [hfst, List.length_replicate]
      have := workRow_getD_le_globalMax f t ov B (K := K) hk hb
      omega
    have hw := writes_getElem?_nodup
      ((workRow f t ov B k).zip (((disRow f t ov B k).1).map (data k)))
      (List.replicate (maxL ((workingMap f t ov B K).map maxL) + 1) none) b hblt hnd hlt
    rw [List.getD_eq_getElem?_getD, ← hfst, hw, hsnd]
    rfl
  refine ⟨?_, ?_, hmain, ?_, ?_⟩
  · rw [apply_length, hwlen]
  · intro k hk
    rw [apply_row _ _ _ (by rw [hwlen]; exact hk), writes_length, List.length_replicate]
  · intro k hk j hj
    rw [apply_row _ _ _ (by rw [hwlen]; exact hk), workingMap_getD f t ov B hk,
      indMap_getD f t ov B hk]
    rw [workingMap_getD f t ov B hk] at hj
    have hnot : j ∉ ((workRow f t ov B k).zip (((disRow f t ov B k).1).map (data k))).map
        Prod.fst := by
      rw [List.map_fst_zip _ _ (by rw [hrowlen, List.length_map, hindlen])]
      exact hj
    rw [List.getD_eq_getElem?_getD, writes_getElem?_not_mem _ _ _ hnot,
      List.getElem?_replicate]
    by_cases hcase : j < maxL ((workingMap f t ov B K).map maxL) + 1
    · rw [if_pos hcase]; rfl
    · rw [if_neg hcase]; rfl
  · intro k hk b hb _
    rw [hmain k hk b hb]
    simp

theorem C2_apply_scatter_and_nan_fill_witness :
    (isRoutine linear_sum_approx ∧ 0 < 1) ∧
    ((apply_disentanglement (indMap linear_sum_approx 0 (fun _ _ _ => 0) 1 (0 + 1))
        (workingMap linear_sum_approx 0 (fun _ _ _ => 0) 1 (0 + 1)) (fun k b => k + b)).length =
        0 + 1 ∧
      (∀ k < 0 + 1,
        ((apply_disentanglement (indMap linear_sum_approx 0 (fun _ _ _ => 0) 1 (0 + 1))
          (workingMap linear_sum_approx 0 (fun _ _ _ => 0) 1 (0 + 1))
          (fun k b => k + b)).getD k []).length =
          maxL ((workingMap linear_sum_approx 0 (fun _ _ _ => 0) 1 (0 + 1)).map maxL) + 1) ∧
      (∀ k < 0 + 1, ∀ b < 1,
        ((apply_disentanglement (indMap linear_sum_approx 0 (fun _ _ _ => 0) 1 (0 + 1))
          (workingMap linear_sum_approx 0 (fun _ _ _ => 0) 1 (0 + 1))
          (fun k b => k + b)).getD k []).getD
            (((workingMap linear_sum_approx 0 (fun _ _ _ => 0) 1 (0 + 1)).getD k []).getD b 0)
            none =
          some ((fun k b => k + b) k
            (((indMap linear_sum_approx 0 (fun _ _ _ => 0) 1 (0 + 1)).getD k []).getD b 0))) ∧
      (∀ k < 0 + 1, ∀ j,
        j ∉ (workingMap linear_sum_approx 0 (fun _ _ _ => 0) 1 (0 + 1)).getD k [] →
        ((apply_disentanglement (indMap linear_sum_approx 0 (fun _ _ _ => 0) 1 (0 + 1))
          (workingMap linear_sum_approx 0 (fun _ _ _ => 0) 1 (0 + 1))
          (fun k b => k + b)).getD k []).getD j none = none) ∧
      (∀ k < 0 + 1, ∀ b < 1,
        ((keepMap linear_sum_approx 0 (fun _ _ _ => 0) 1 (0 + 1)).getD k []).getD b false =
          true →
        ((apply_disentanglement (indMap linear_sum_approx 0 (fun _ _ _ => 0) 1 (0 + 1))
          (workingMap linear_sum_approx 0 (fun _ _ _ => 0) 1 (0 + 1))
          (fun k b => k + b)).getD k []).getD
            (((workingMap linear_sum_approx 0 (fun _ _ _ => 0) 1 (0 + 1)).getD k []).getD b 0)
            none ≠ none)) :=
  ⟨⟨Or.inl rfl, by decide⟩,
    C2_apply_scatter_and_nan_fill (Or.inl rfl) 0 (fun _ _ _ => 0) 0 1 (by decide)
      (fun k b => k + b) _ _ _ _ rfl rfl rfl rfl⟩

lemma scenario_ind :
    indMap linear_sum_scipy 0 scenarioTensor 2 3 = [[0, 1], [0, 1], [1, 0]] := by
  norm_num [indMap, disRow, linear_sum_scipy, chooseMax, weight, List.permutations',
    List.permutations'Aux, scenarioTensor, List.range_succ, List.range_zero, List.map_append,
    List.sum_append, List.map_cons, List.sum_cons, List.map_nil, List.sum_nil,
    List.foldl_cons, List.foldl_nil]

lemma scenario_keep :
    keepMap linear_sum_scipy 0 scenarioTensor 2 3 = [[true, true], [true, true], [true, true]] := by
  norm_num [keepMap, disRow, linear_sum_scipy, chooseMax, weight, List.permutations',
    List.permutations'Aux, scenarioTensor, List.range_succ, List.range_zero, List.map_append,
    List.sum_append, List.map_cons, List.sum_cons, List.map_nil, List.sum_nil,
    List.foldl_cons, List.foldl_nil, List.replicate]

lemma scenario_working :
    workingMap linear_sum_scipy 0 scenarioTensor 2 3 = [[0, 1], [0, 1], [0, 1]] := by
  simp only [workingMap, workRow_zero]
  decide

/-- C8 counterexample: the claim asserts that at the scenario input (`B = 2`, `K = 3`,
overlap `[[[0.9, 0.1], [0.1, 0.9]], [[0.05, 0.95], [0.95, 0.05]]]`, threshold forced to
`0`) the computed WorkingIndexMap equals the IndexMap; but with threshold `0` no track is
ever retired, so WorkingIndexMap stays `[[0, 1], [0, 1], [0, 1]]` while IndexMap ends in
`[1, 0]`: the two matrices differ. -/
theorem C8_counterexample :
    workingMap linear_sum_scipy 0 scenarioTensor 2 3 ≠
      indMap linear_sum_scipy 0 scenarioTensor 2 3 := by
  rw [scenario_working, scenario_ind]
  decide

/-- C8 (amended): at the scenario input (`B = 2`, `K = 3`, threshold forced to `0`, the
default optimal-assignment routine) the computed IndexMap is `[[0, 1], [0, 1], [1, 0]]`,
every KeepMask entry is `True`, and the WorkingIndexMap stays the identity rows
`[[0, 1], [0, 1], [0, 1]]` with no growth: its maximum value stays `1`. (It does not
equal IndexMap, whose last row is `[1, 0]`.) -/
theorem C8_scenario_values :
    indMap linear_sum_scipy 0 scenarioTensor 2 3 = [[0, 1], [0, 1], [1, 0]] ∧
    keepMap linear_sum_scipy 0 scenarioTensor 2 3 = [[true, true], [true, true], [true, true]] ∧
    workingMap linear_sum_scipy 0 scenarioTensor 2 3 = [[0, 1], [0, 1], [0, 1]] ∧
    maxL ((workingMap linear_sum_scipy 0 scenarioTensor 2 3).map maxL) = 1 := by
  refine ⟨scenario_ind, scenario_keep, scenario_working, ?_⟩
  rw [scenario_working]
  decide

/-- C9: for every complex wavefunction array with exactly 3 axes `(k, band, component)`
and `K ≥ 2` k-points, the overlap computation returns the `(K-1, B, B)` tensor whose
entry `[i, a, b]` is the magnitude of the inner product of `wavefunction[i, a, :]` with
the conjugate of `wavefunction[i+1, b, :]`; it returns no result (a shape-assertion
failure) when the array does not have exactly 3 axes or when `K < 2`. -/
theorem C9_overlap_matrix_contract (w : NDArrayC) :
    (∀ K B C, w.shape = [K, B, C] → 2 ≤ K →
      ∃ tens, calc_overlap_matrix w = some tens ∧ tens.length = K - 1 ∧
        (∀ i, i < K - 1 → (tens.getD i []).length = B ∧
          (∀ a, a < B → ((tens.getD i []).getD a []).length = B ∧
            (∀ b, b < B → ((tens.getD i []).getD a []).getD b 0 =
              cabs (dotc (wfRow w B C i a) (wfRow w B C (i + 1) b)))))) ∧
    (w.shape.length ≠ 3 → calc_overlap_matrix w = none) ∧
    (∀ K B C, w.shape = [K, B, C] → K < 2 → calc_overlap_matrix w = none) := by
  refine ⟨?_, ?_, ?_⟩
  · intro K B C hsh hK
    refine ⟨(List.range (K - 1)).map (fun i => (List.range B).map (fun a =>
      (List.range B).map (fun b =>
        cabs (dotc (wfRow w B C i a) (wfRow w B C (i + 1) b))))), ?_, by simp, ?_⟩
    · rw [calc_overlap_matrix.eq_def, hsh]
      simp only [if_pos hK]
    · intro i hi
      rw [getD_range_map _ _ hi]
      refine ⟨by simp, ?_⟩
      intro a ha
      rw [getD_range_map _ _ ha]
      refine ⟨by simp, ?_⟩
      intro b hb
      rw [getD_range_map _ _ hb]
  · intro h
    rcases w with ⟨shape, d⟩
    rcases shape with _ | ⟨a, shape⟩
    · rfl
    rcases shape with _ | ⟨b, shape⟩
    · rfl
    rcases shape with _ | ⟨c, shape⟩
    · rfl
    rcases shape with _ | ⟨e, shape⟩
    · exact absurd rfl h
    · rfl
  · intro K B C hsh hK
    rw [calc_overlap_matrix.eq_def, hsh]
    simp only [if_neg (by omega : ¬ 2 ≤ K)]

theorem C9_overlap_matrix_contract_witness :
    ((⟨[2, 1, 1], [((1 : ℚ), (0 : ℚ)), ((1 : ℚ), (0 : ℚ))]⟩ : NDArrayC).shape = [2, 1, 1] ∧
      2 ≤ 2) ∧
    ∃ tens,
      calc_overlap_matrix (⟨[2, 1, 1], [((1 : ℚ), (0 : ℚ)), ((1 : ℚ), (0 : ℚ))]⟩ : NDArrayC) =
        some tens ∧
      tens.length = 2 - 1 ∧
      (∀ i, i < 2 - 1 → (tens.getD i []).length = 1 ∧
        (∀ a, a < 1 → ((tens.getD i []).getD a []).length = 1 ∧
          (∀ b, b < 1 → ((tens.getD i []).getD a []).getD b 0 =
            cabs (dotc
              (wfRow (⟨[2, 1, 1], [((1 : ℚ), (0 : ℚ)), ((1 : ℚ), (0 : ℚ))]⟩ : NDArrayC) 1 1 i a)
              (wfRow (⟨[2, 1, 1], [((1 : ℚ), (0 : ℚ)), ((1 : ℚ), (0 : ℚ))]⟩ : NDArrayC) 1 1
                (i + 1) b))))) :=
  ⟨⟨rfl, by decide⟩,
    (C9_overlap_matrix_contract
      (⟨[2, 1, 1], [((1 : ℚ), (0 : ℚ)), ((1 : ℚ), (0 : ℚ))]⟩ : NDArrayC)).1 2 1 1 rfl
      (by decide)⟩

end Pybinding
